import Mathlib

/-!
Verification of the binary relocation subsystem of the spack package manager
(module `spack.relocate`, exercised by `lib/spack/spack/test/relocate.py`).

The production module is not part of the available sources, so the data model
and the operations are modelled from the specification: POSIX path strings,
`$ORIGIN`-relative RPATH lists, the patch-tool interaction (observable as an
exit code plus captured output), the path transforms `to_relative` and
`to_absolute`, and the relocation pipeline `relocate`.

Paths are modelled as `String`s; the path algebra (splitting on `/`, joining,
normalization resolving `.` and `..`, `dirname`, `relpath`) is implemented on
`List Char` so that the algebraic laws can be proved by structural induction.
-/

namespace Relocate

/-! ### Definitions -/

/-- Split a character list on a separator character.  `splitSep '/' "a/b"` is
`["a", "b"]`; the result is never empty and splitting the empty list yields
`[[]]`, mirroring `"".split('/') == ['']`. -/
def splitSep (sep : Char) : List Char → List (List Char)
  | [] => [[]]
  | c :: cs =>
    if c = sep then [] :: splitSep sep cs
    else
      match splitSep sep cs with
      | [] => [[c]]
      | h :: t => (c :: h) :: t

/-- Join a list of character lists with a separator character, the inverse of
`splitSep`. -/
def joinSep (sep : Char) : List (List Char) → List Char
  | [] => []
  | [x] => x
  | x :: y :: ys => x ++ sep :: joinSep sep (y :: ys)

/-- A path segment is clean when it is neither empty nor one of the special
segments `.` and `..`. -/
def isClean (s : List Char) : Bool :=
  ¬ (s = [] ∨ s = ['.'] ∨ s = ['.', '.'])

/-- One step of path normalization over a reversed accumulator of resolved
segments: empty segments and `.` are dropped, `..` pops the previous segment
(or is kept at the front of a relative path), and any other segment is
pushed. -/
def resolveStep (abs : Bool) (acc : List (List Char)) (seg : List Char) :
    List (List Char) :=
  if seg = [] ∨ seg = ['.'] then acc
  else if seg = ['.', '.'] then
    match acc with
    | [] => if abs then [] else [['.', '.']]
    | top :: rest => if top = ['.', '.'] then ['.', '.'] :: top :: rest else rest
  else seg :: acc

/-- Fold `resolveStep` over a list of segments. -/
def resolveFold (abs : Bool) (acc : List (List Char))
    (segs : List (List Char)) : List (List Char) :=
  segs.foldl (resolveStep abs) acc

/-- Length of the longest common prefix of two segment lists. -/
def commonPrefixLen : List (List Char) → List (List Char) → Nat
  | a :: as, b :: bs => if a = b then commonPrefixLen as bs + 1 else 0
  | _, _ => 0

/-- Modelled from the spec: the resolved segment list of an absolute path,
used by path normalization and by `relpath` (the production code reaches this
through `os.path.normpath`/`os.path.relpath`; `spack/relocate.py` itself is
not among the sources). -/
def segsAbs (p : List Char) : List (List Char) :=
  (resolveFold true [] (splitSep '/' p)).reverse

/-- Modelled from the spec: POSIX path normalization (Python
`os.path.normpath`): collapse empty and `.` segments and resolve `..`; on
absolute paths `..` at the root vanishes, on relative paths leading `..`
segments are kept; the empty path normalizes to `.`. -/
def normpathChars (p : List Char) : List Char :=
  if p = [] then ['.']
  else if p.head? = some '/' then
    '/' :: joinSep '/' (segsAbs p)
  else
    let segs := (resolveFold false [] (splitSep '/' p)).reverse
    if segs = [] then ['.'] else joinSep '/' segs

/-- Modelled from the spec: Python `os.path.dirname` — everything before the
last `/`, with the degenerate results `""` for slash-free paths and `"/"`
for paths directly under the root. -/
def dirnameChars (p : List Char) : List Char :=
  let d := joinSep '/' (splitSep '/' p).dropLast
  if d = [] ∧ p.head? = some '/' then ['/'] else d

/-- Modelled from the spec: Python `os.path.relpath` on absolute paths — the
walk from directory `d` to path `p`, made of `..` steps out of the
uncommon part of `d` followed by the uncommon part of `p`, or `.` when the
two coincide. -/
def relpathChars (p d : List Char) : List Char :=
  let pl := segsAbs p
  let dl := segsAbs d
  let i := commonPrefixLen dl pl
  let rel := List.replicate (dl.length - i) ['.', '.'] ++ pl.drop i
  if rel = [] then ['.'] else joinSep '/' rel

/-- String-level path normalization. -/
def normpath (p : String) : String := String.mk (normpathChars p.data)

/-- String-level dirname. -/
def dirname (p : String) : String := String.mk (dirnameChars p.data)

/-- String-level relative-path computation: `relpath p d` walks from the
directory `d` to the path `p`. -/
def relpath (p d : String) : String := String.mk (relpathChars p.data d.data)

/-- Modelled from the spec: a path is a descendant of (is "under") `root`
when it extends `root` past a path separator. -/
def isDescendant (root p : String) : Bool :=
  (root.data ++ ['/']).isPrefixOf p.data

/-- Whether a path string is absolute (POSIX: starts with `/`). -/
def isAbsPath (p : String) : Bool := p.data.head? = some '/'

/-- The observable outcome of one patch-tool invocation: its exit code and
its captured combined stdout/stderr text. -/
structure ToolResult where
  exitCode : Nat
  output : String
deriving DecidableEq

/-- Whitespace characters for trimming tool output. -/
def isWS (c : Char) : Bool := c = ' ' ∨ c = '\t' ∨ c = '\n' ∨ c = '\r'

/-- Strip leading and trailing whitespace from a character list. -/
def trimChars (l : List Char) : List Char :=
  ((l.dropWhile isWS).reverse.dropWhile isWS).reverse

/-- Modelled from the spec: `read_rpaths` (production `_elf_rpaths_for`, not
among the sources) invokes `tool --print-rpath binary`; a non-zero exit or
empty/whitespace-only output yields the empty list, otherwise the trimmed
output is split on `:` into the ordered RPATH list.  The function is total:
no outcome of the tool makes it raise. -/
def read_rpaths (r : ToolResult) : List String :=
  if r.exitCode ≠ 0 then []
  else if trimChars r.output.data = [] then []
  else (splitSep ':' (trimChars r.output.data)).map String.mk

/-- Join RPATH entries with `:` as they are passed to the patch tool. -/
def joinPaths (l : List String) : String :=
  String.mk (joinSep ':' (l.map String.data))

/-- The argument vector of a `--force-rpath --set-rpath` invocation. -/
def write_rpath_args (binary : String) (rpaths : List String) : List String :=
  ["--force-rpath", "--set-rpath", joinPaths rpaths, binary]

/-- Modelled from the spec: `write_rpaths` (production `_set_elf_rpaths`, not
among the sources) invokes the patch tool in force-set mode; on non-zero exit
it returns `none` (the production code additionally logs a warning, a side
effect not modelled), on success it returns the captured output.  The tool is
represented by a function from the argument vector to its observable
result. -/
def write_rpaths (tool : List String → ToolResult) (binary : String)
    (rpaths : List String) : Option String :=
  let r := tool (write_rpath_args binary rpaths)
  if r.exitCode ≠ 0 then none else some r.output

/-- A mock patch tool that echoes its arguments, space-joined, and exits 0 —
the `mock_patchelf('echo $@')` fixture of the test suite. -/
def echoTool (args : List String) : ToolResult :=
  ⟨0, String.mk (joinSep ' ' (args.map String.data))⟩

/-- Substring containment on character lists, by brute-force scan. -/
def infixOf (a b : List Char) : Bool :=
  (List.range (b.length + 1)).any fun i => a.isPrefixOf (b.drop i)

/-- The `$ORIGIN` marker of `$ORIGIN`-relative RPATH entries. -/
def originMarker : List Char := ['$', 'O', 'R', 'I', 'G', 'I', 'N']

/-- Modelled from the spec: `to_relative` (production `_make_relative`, not
among the sources) rewrites each path that is a descendant of `base_root` as
`$ORIGIN/<relative walk from the directory of start_path to the path>`;
paths not under `base_root` pass through unchanged. -/
def to_relative (start_path base_root : String) (paths : List String) :
    List String :=
  let startDir := dirname start_path
  paths.map fun p =>
    if isDescendant base_root p then
      String.mk (originMarker ++ '/' :: (relpath p startDir).data)
    else p

/-- Modelled from the spec: `to_absolute` (production
`_normalize_relative_paths`, not among the sources) replaces a leading
`$ORIGIN` marker with the directory of `start_path` and normalizes the
result; entries without the marker — absolute or bare relative — pass
through verbatim. -/
def to_absolute (start_path : String) (paths : List String) : List String :=
  let startDir := dirname start_path
  paths.map fun p =>
    if originMarker.isPrefixOf p.data then
      String.mk (normpathChars (startDir.data ++ p.data.drop 7))
    else p

/-- Modelled from the spec: one application of the prefix-substitution map to
one RPATH entry — the first `(old, new)` pair whose `old` is a string prefix
of the entry replaces that prefix, later pairs are ignored, and an entry no
pair matches is kept unchanged. -/
def applySubst (pairs : List (String × String)) (entry : String) : String :=
  match pairs.find? (fun pr => pr.1.data.isPrefixOf entry.data) with
  | some pr => String.mk (pr.2.data ++ entry.data.drop pr.1.data.length)
  | none => entry

/-- Modelled from the spec: one relocation batch's parameters
(`RelocationRequest`): the binaries, the original root, the optional new
root, the prefix-substitution map in insertion order, the relative-mode
flag, and the optional original/new prefix of the binaries themselves
(`origPfx`/`newPfx` model the spec's `orig_prefix`/`new_prefix`). -/
structure RelocationRequest where
  binaries : List String
  origRoot : String
  newRoot : Option String
  newPrefixes : List (String × String)
  rel : Bool
  origPfx : Option String
  newPfx : Option String

/-- Modelled from the spec: where a relocated binary used to sit before the
copy — the original prefix extended by the binary's path relative to the new
root. -/
def origLocation (origPfx newRoot binary : String) : String :=
  String.mk (origPfx.data ++ '/' :: (relpath binary newRoot).data)

/-- Modelled from the spec: the per-binary RPATH computation of `relocate`
(production `relocate_elf_binaries`, not among the sources).  In relative
mode the entries are made absolute against the binary's original location,
prefix-substituted, and made `$ORIGIN`-relative against the new root; in
absolute mode they are only prefix-substituted.  The optional parameters are
consulted only in relative mode. -/
def relocate_rpaths (req : RelocationRequest) (binary : String)
    (rpaths : List String) : List String :=
  if req.rel then
    let origBin := origLocation (req.origPfx.getD "") (req.newRoot.getD "") binary
    let absRpaths := to_absolute origBin rpaths
    let substituted := absRpaths.map (applySubst req.newPrefixes)
    to_relative binary (req.newRoot.getD "") substituted
  else
    rpaths.map (applySubst req.newPrefixes)

/-- Modelled from the spec: the whole `relocate` pipeline over a batch — for
each binary, read its RPATHs through the patch tool, compute the new list,
and write it back; the result lists each binary with the final RPATH list
written to it. -/
def relocate (req : RelocationRequest) (readTool : String → ToolResult) :
    List (String × List String) :=
  req.binaries.map fun b => (b, relocate_rpaths req b (read_rpaths (readTool b)))

/-- Modelled from the spec: the argument validation of `file_is_relocatable`
(production code not among the sources) — the file must exist (checked
first) and the path must be absolute (checked second), each violation
failing with its own descriptive argument error; otherwise the relocatable
predicate proper (abstracted here as `body`) decides the result. -/
def file_is_relocatable (fileExists : String → Bool) (body : String → Bool)
    (path : String) : Except String Bool :=
  if fileExists path = false then Except.error (path ++ " does not exist")
  else if isAbsPath path = false then
    Except.error (path ++ " is not an absolute path")
  else Except.ok (body path)

/-- Which of the three resolution tiers produced the patch tool. -/
inductive ToolProvenance where
  | which_found
  | installed
  | to_be_installed
deriving DecidableEq

/-- Modelled from the spec: the environment `locate_patch_tool` probes — the
search-path lookup result, the already-installed dependency's executable
path when present, and the path the executable has after installing the
dependency. -/
structure ToolEnv where
  which_path : Option String
  installed_path : Option String
  install_result : String

/-- Modelled from the spec: `locate_patch_tool` (production `_patchelf`, not
among the sources) — return the search-path hit immediately when there is
one; otherwise the already-installed dependency's path; otherwise install
the dependency and return the resulting path.  The provenance records which
tier fired. -/
def locate_patch_tool (env : ToolEnv) : String × ToolProvenance :=
  match env.which_path with
  | some p => (p, ToolProvenance.which_found)
  | none =>
    match env.installed_path with
    | some p => (p, ToolProvenance.installed)
    | none => (env.install_result, ToolProvenance.to_be_installed)

/-- An absolute path whose segments are all clean (no empty, `.` or `..`
segments): the well-formedness condition on install roots. -/
def cleanAbs (t : String) : Bool :=
  decide (t.data.head? = some '/') && (splitSep '/' t.data.tail).all isClean

/-- A request on which the unrestricted idempotence claim fails: the new
value `/a/b` extends the old value `/a`, so the second run substitutes
again. -/
def counterReq : RelocationRequest :=
  ⟨["/b/x"], "/a", none, [("/a", "/a/b")], false, none, none⟩

/-- The relocated binary of the relative-mode relocation scenario:
`<tmpdir>/another_dir/main.x`. -/
def c1binary (t : String) : String :=
  String.mk (t.data ++ '/' :: ("another_dir".data ++ '/' :: "main.x".data))

/-- The new root of the relative-mode relocation scenario:
`<tmpdir>/another_dir`. -/
def c1newRoot (t : String) : String :=
  String.mk (t.data ++ '/' :: "another_dir".data)

/-- The relative-mode relocation request of the scenario: the binary was
built at `<tmpdir>` (its original root and prefix), copied under
`<tmpdir>/another_dir`, and relocated with the substitution
`{<tmpdir>: '/foo'}`. -/
def c1req (t : String) : RelocationRequest :=
  ⟨[c1binary t], t, some (c1newRoot t), [(t, "/foo")], true,
    some t, some (c1newRoot t)⟩

/-! ### Theorems -/

theorem splitSep_ne_nil (sep : Char) (l : List Char) : splitSep sep l ≠ [] := by
  cases l with
  | nil => simp [splitSep]
  | cons c cs =>
    by_cases h : c = sep
    · simp [splitSep, h]
    · simp only [splitSep, if_neg h]
      cases hs : splitSep sep cs with
      | nil => simp
      | cons a t => simp

theorem splitSep_append (sep : Char) (a b : List Char) :
    splitSep sep (a ++ sep :: b) = splitSep sep a ++ splitSep sep b := by
  induction a with
  | nil => simp [splitSep]
  | cons c cs ih =>
    by_cases h : c = sep
    · simp [splitSep, h, ih]
    · simp only [List.cons_append, splitSep, if_neg h, List.append_eq]
      rw [ih]
      cases hs : splitSep sep cs with
      | nil => exact absurd hs (splitSep_ne_nil sep cs)
      | cons x t => simp

theorem joinSep_splitSep (sep : Char) (l : List Char) :
    joinSep sep (splitSep sep l) = l := by
  induction l with
  | nil => simp [splitSep, joinSep]
  | cons c cs ih =>
    by_cases h : c = sep
    · simp only [splitSep, if_pos h]
      cases hs : splitSep sep cs with
      | nil => exact absurd hs (splitSep_ne_nil sep cs)
      | cons x t =>
        rw [hs] at ih
        simp [joinSep, ih, h]
    · simp only [splitSep, if_neg h]
      cases hs : splitSep sep cs with
      | nil => exact absurd hs (splitSep_ne_nil sep cs)
      | cons x t =>
        rw [hs] at ih
        cases t with
        | nil => simpa [joinSep] using congrArg (c :: ·) ih
        | cons y ys => simpa [joinSep] using congrArg (c :: ·) ih

theorem splitSep_sep_free (sep : Char) (l : List Char) (h : sep ∉ l) :
    splitSep sep l = [l] := by
  induction l with
  | nil => simp [splitSep]
  | cons c cs ih =>
    have hc : ¬ c = sep := fun hcs => h (hcs ▸ List.mem_cons_self c cs)
    have hcs : sep ∉ cs := fun hm => h (List.mem_cons_of_mem c hm)
    simp [splitSep, hc, ih hcs]

theorem mem_splitSep_sep_free (sep : Char) (l : List Char) :
    ∀ s ∈ splitSep sep l, sep ∉ s := by
  induction l with
  | nil => intro s hs; simp [splitSep] at hs; simp [hs]
  | cons c cs ih =>
    intro s hs
    by_cases h : c = sep
    · simp only [splitSep, if_pos h] at hs
      rcases List.mem_cons.mp hs with hs2 | hs2
      · simp [hs2]
      · exact ih s hs2
    · simp only [splitSep, if_neg h] at hs
      cases hrec : splitSep sep cs with
      | nil => exact absurd hrec (splitSep_ne_nil sep cs)
      | cons x t =>
        rw [hrec] at hs
        rcases List.mem_cons.mp hs with hs | hs
        · subst hs
          intro hmem
          rcases List.mem_cons.mp hmem with h1 | h1
          · exact h h1.symm
          · exact ih x (hrec ▸ List.mem_cons_self x t) h1
        · exact ih s (hrec ▸ List.mem_cons_of_mem x hs)

theorem splitSep_joinSep (sep : Char) (L : List (List Char)) (hne : L ≠ [])
    (hfree : ∀ x ∈ L, sep ∉ x) : splitSep sep (joinSep sep L) = L := by
  induction L with
  | nil => exact absurd rfl hne
  | cons x xs ih =>
    cases xs with
    | nil =>
      simp only [joinSep]
      exact splitSep_sep_free sep x (hfree x (List.mem_cons_self x []))
    | cons y ys =>
      have hx : sep ∉ x := hfree x (List.mem_cons_self x (y :: ys))
      have hrest : ∀ z ∈ y :: ys, sep ∉ z := fun z hz =>
        hfree z (List.mem_cons_of_mem x hz)
      simp only [joinSep]
      rw [splitSep_append, splitSep_sep_free sep x hx, ih (by simp) hrest]
      simp

theorem joinSep_append (sep : Char) (xs ys : List (List Char)) (hx : xs ≠ [])
    (hy : ys ≠ []) :
    joinSep sep (xs ++ ys) = joinSep sep xs ++ sep :: joinSep sep ys := by
  induction xs with
  | nil => exact absurd rfl hx
  | cons a as ih =>
    cases as with
    | nil =>
      cases ys with
      | nil => exact absurd rfl hy
      | cons b bs => simp [joinSep]
    | cons a2 as2 =>
      have ih2 := ih (by simp)
      simp only [List.cons_append] at ih2 ⊢
      simp [joinSep, ih2]

theorem resolveFold_append (abs : Bool) (acc : List (List Char))
    (xs ys : List (List Char)) :
    resolveFold abs acc (xs ++ ys) = resolveFold abs (resolveFold abs acc xs) ys := by
  simp [resolveFold, List.foldl_append]

theorem resolveStep_clean (abs : Bool) (acc : List (List Char))
    (seg : List Char) (h : isClean seg = true) :
    resolveStep abs acc seg = seg :: acc := by
  simp only [isClean, decide_eq_true_eq, not_or] at h
  simp [resolveStep, h.1, h.2.1, h.2.2]

theorem resolveStep_skip (abs : Bool) (acc : List (List Char))
    (seg : List Char) (h : seg = [] ∨ seg = ['.']) :
    resolveStep abs acc seg = acc := by
  unfold resolveStep
  rw [if_pos h]

theorem resolveStep_dotdot_nil_abs : resolveStep true [] ['.', '.'] = [] := by
  simp [resolveStep]

theorem resolveStep_dotdot_cons (abs : Bool) (top : List Char)
    (rest : List (List Char)) (htop : top ≠ ['.', '.']) :
    resolveStep abs (top :: rest) ['.', '.'] = rest := by
  simp [resolveStep, htop]

theorem resolveFold_clean (abs : Bool) (acc : List (List Char))
    (segs : List (List Char)) (h : ∀ s ∈ segs, isClean s = true) :
    resolveFold abs acc segs = segs.reverse ++ acc := by
  induction segs generalizing acc with
  | nil => simp [resolveFold]
  | cons s ss ih =>
    have hs : isClean s = true := h s (List.mem_cons_self s ss)
    have hss : ∀ x ∈ ss, isClean x = true := fun x hx =>
      h x (List.mem_cons_of_mem s hx)
    simp only [resolveFold, List.foldl_cons, resolveStep_clean abs acc s hs]
    rw [show List.foldl (resolveStep abs) (s :: acc) ss
        = resolveFold abs (s :: acc) ss from rfl, ih (s :: acc) hss]
    simp

theorem resolveFold_dotdot (acc : List (List Char)) (k : Nat)
    (h : ∀ s ∈ acc, s ≠ ['.', '.']) :
    resolveFold true acc (List.replicate k ['.', '.']) = acc.drop k := by
  induction k generalizing acc with
  | zero => simp [resolveFold]
  | succ n ih =>
    rw [List.replicate_succ]
    simp only [resolveFold, List.foldl_cons]
    cases acc with
    | nil =>
      have : resolveStep true [] ['.', '.'] = [] := by simp [resolveStep]
      rw [this]
      simpa [resolveFold] using ih [] (by simp)
    | cons top rest =>
      have htop : top ≠ ['.', '.'] := h top (List.mem_cons_self top rest)
      have : resolveStep true (top :: rest) ['.', '.'] = rest := by
        simp [resolveStep, htop]
      rw [this, List.drop_succ_cons]
      exact ih rest fun s hs => h s (List.mem_cons_of_mem top hs)

theorem resolveFold_all_clean (acc : List (List Char))
    (segs : List (List Char)) (hacc : ∀ s ∈ acc, isClean s = true) :
    ∀ s ∈ resolveFold true acc segs, isClean s = true := by
  induction segs generalizing acc with
  | nil => simpa [resolveFold] using hacc
  | cons x xs ih =>
    simp only [resolveFold, List.foldl_cons]
    refine ih (resolveStep true acc x) ?_
    intro s hs
    by_cases h1 : x = [] ∨ x = ['.']
    · rw [resolveStep_skip true acc x h1] at hs; exact hacc s hs
    · by_cases h2 : x = ['.', '.']
      · subst h2
        cases acc with
        | nil => rw [resolveStep_dotdot_nil_abs] at hs; simp at hs
        | cons top rest =>
          have htop : top ≠ ['.', '.'] :=
            fun hh => by
              have := hacc top (List.mem_cons_self top rest)
              simp [isClean, hh] at this
          rw [resolveStep_dotdot_cons true top rest htop] at hs
          exact hacc s (List.mem_cons_of_mem top hs)
      · have hcx : isClean x = true := by
          simp only [isClean, decide_eq_true_eq, not_or]
          simp only [not_or] at h1
          exact ⟨h1.1, h1.2, h2⟩
        rw [resolveStep_clean true acc x hcx] at hs
        rcases List.mem_cons.mp hs with h3 | h3
        · subst h3; exact hcx
        · exact hacc s h3

theorem commonPrefixLen_le_left (as bs : List (List Char)) :
    commonPrefixLen as bs ≤ as.length := by
  induction as generalizing bs with
  | nil => simp [commonPrefixLen]
  | cons a as ih =>
    cases bs with
    | nil => simp [commonPrefixLen]
    | cons b bs =>
      by_cases h : a = b
      · simpa [commonPrefixLen, h] using ih bs
      · simp [commonPrefixLen, h]

theorem commonPrefixLen_le_right (as bs : List (List Char)) :
    commonPrefixLen as bs ≤ bs.length := by
  induction as generalizing bs with
  | nil => cases bs <;> simp [commonPrefixLen]
  | cons a as ih =>
    cases bs with
    | nil => simp [commonPrefixLen]
    | cons b bs =>
      by_cases h : a = b
      · simpa [commonPrefixLen, h] using ih bs
      · simp [commonPrefixLen, h]

theorem take_commonPrefixLen_eq (as bs : List (List Char)) :
    as.take (commonPrefixLen as bs) = bs.take (commonPrefixLen as bs) := by
  induction as generalizing bs with
  | nil => cases bs <;> simp [commonPrefixLen]
  | cons a as ih =>
    cases bs with
    | nil => simp [commonPrefixLen]
    | cons b bs =>
      by_cases h : a = b
      · simp [commonPrefixLen, h, ih bs]
      · simp [commonPrefixLen, h]

theorem commonPrefixLen_append_self (l m : List (List Char)) :
    commonPrefixLen l (l ++ m) = l.length := by
  induction l with
  | nil => cases m <;> simp [commonPrefixLen]
  | cons a as ih => simp [commonPrefixLen, ih]

@[simp]
theorem data_mk (l : List Char) : (String.mk l).data = l := rfl

theorem mk_data (s : String) : String.mk s.data = s := by cases s; rfl

theorem isPrefixOf_append_self (l m : List Char) :
    l.isPrefixOf (l ++ m) = true := by
  rw [List.isPrefixOf_iff_prefix]
  exact List.prefix_append l m

theorem isPrefixOf_false_of_lt (a b : List Char) (h : b.length < a.length) :
    a.isPrefixOf b = false := by
  cases hab : a.isPrefixOf b with
  | false => rfl
  | true =>
    exact absurd (List.isPrefixOf_iff_prefix.mp hab).length_le (by omega)

theorem dropWhile_eq_self_of_none (p : Char → Bool) (l : List Char)
    (h : ∀ c ∈ l, p c = false) : l.dropWhile p = l := by
  cases l with
  | nil => rfl
  | cons c cs => simp [List.dropWhile, h c (List.mem_cons_self c cs)]

theorem trimChars_eq_self (l : List Char) (h : ∀ c ∈ l, isWS c = false) :
    trimChars l = l := by
  unfold trimChars
  rw [dropWhile_eq_self_of_none isWS l h,
    dropWhile_eq_self_of_none isWS l.reverse fun c hc =>
      h c (List.mem_reverse.mp hc), List.reverse_reverse]

theorem mem_joinSep (sep : Char) (L : List (List Char)) (c : Char)
    (h : c ∈ joinSep sep L) : c = sep ∨ ∃ x ∈ L, c ∈ x := by
  induction L with
  | nil => simp [joinSep] at h
  | cons x xs ih =>
    cases xs with
    | nil =>
      simp only [joinSep] at h
      exact Or.inr ⟨x, List.mem_cons_self x [], h⟩
    | cons y ys =>
      simp only [joinSep] at h
      rcases List.mem_append.mp h with h1 | h1
      · exact Or.inr ⟨x, List.mem_cons_self x (y :: ys), h1⟩
      · rcases List.mem_cons.mp h1 with h2 | h2
        · exact Or.inl h2
        · rcases ih h2 with h3 | ⟨z, hz, hcz⟩
          · exact Or.inl h3
          · exact Or.inr ⟨z, List.mem_cons_of_mem x hz, hcz⟩

theorem joinSep_ne_nil (sep : Char) (x : List Char) (xs : List (List Char))
    (hx : x ≠ []) : joinSep sep (x :: xs) ≠ [] := by
  cases xs with
  | nil => simpa [joinSep] using hx
  | cons y ys =>
    simp only [joinSep]
    intro hcontra
    rcases List.append_eq_nil.mp hcontra with ⟨h1, _⟩
    exact hx h1

theorem resolveFold_mem_true (acc segs : List (List Char)) :
    ∀ s ∈ resolveFold true acc segs, s ∈ acc ∨ s ∈ segs := by
  induction segs generalizing acc with
  | nil => intro s hs; exact Or.inl (by simpa [resolveFold] using hs)
  | cons x xs ih =>
    intro s hs
    simp only [resolveFold, List.foldl_cons] at hs
    rcases ih (resolveStep true acc x) s hs with h1 | h1
    · by_cases hc1 : x = [] ∨ x = ['.']
      · rw [resolveStep_skip true acc x hc1] at h1
        exact Or.inl h1
      · by_cases hc2 : x = ['.', '.']
        · subst hc2
          cases acc with
          | nil =>
            rw [resolveStep_dotdot_nil_abs] at h1
            simp at h1
          | cons top rest =>
            by_cases htop : top = ['.', '.']
            · subst htop
              have hstep : resolveStep true (['.', '.'] :: rest) ['.', '.']
                  = ['.', '.'] :: ['.', '.'] :: rest := by
                simp [resolveStep]
              rw [hstep] at h1
              rcases List.mem_cons.mp h1 with h2 | h2
              · exact Or.inl (h2 ▸ List.mem_cons_self _ rest)
              · exact Or.inl h2
            · rw [resolveStep_dotdot_cons true top rest htop] at h1
              exact Or.inl (List.mem_cons_of_mem top h1)
        · have hcx : isClean x = true := by
            simp only [isClean, decide_eq_true_eq, not_or]
            simp only [not_or] at hc1
            exact ⟨hc1.1, hc1.2, hc2⟩
          rw [resolveStep_clean true acc x hcx] at h1
          rcases List.mem_cons.mp h1 with h2 | h2
          · exact Or.inr (h2 ▸ List.mem_cons_self x xs)
          · exact Or.inl h2
    · exact Or.inr (List.mem_cons_of_mem x h1)

theorem map_mk_data (ps : List String) :
    (ps.map String.data).map String.mk = ps := by
  induction ps with
  | nil => rfl
  | cons q qs ih => simp [ih, mk_data]

/-- C3: `read_rpaths` never raises (it is a total Lean function) and covers
the three tool outcomes of the claim: a non-zero exit yields `[]`,
empty/whitespace-only output yields `[]` (so a tool failure is
indistinguishable from a genuinely empty RPATH), and a colon-joined list of
paths is returned in order. -/
theorem read_rpaths_cases (r : ToolResult) (ps : List String) (hne : ps ≠ [])
    (hok : ∀ p ∈ ps, p.data ≠ [] ∧ ∀ c ∈ p.data, isWS c = false ∧ c ≠ ':') :
    (r.exitCode ≠ 0 → read_rpaths r = []) ∧
    (r.exitCode = 0 → trimChars r.output.data = [] → read_rpaths r = []) ∧
    read_rpaths ⟨0, joinPaths ps⟩ = ps := by
  refine ⟨fun h => by simp [read_rpaths, h],
    fun h0 ht => by simp [read_rpaths, h0, ht], ?_⟩
  have hws : ∀ c ∈ joinSep ':' (ps.map String.data), isWS c = false := by
    intro c hc
    rcases mem_joinSep ':' _ c hc with h1 | ⟨x, hx, hcx⟩
    · subst h1; decide
    · rcases List.mem_map.mp hx with ⟨q, hq, rfl⟩
      exact ((hok q hq).2 c hcx).1
  have hfree : ∀ x ∈ ps.map String.data, ':' ∉ x := by
    intro x hx hcx
    rcases List.mem_map.mp hx with ⟨q, hq, rfl⟩
    exact ((hok q hq).2 ':' hcx).2 rfl
  have hmapne : ps.map String.data ≠ [] := by
    cases ps with
    | nil => exact absurd rfl hne
    | cons q qs => simp
  have hjoin_ne : joinSep ':' (ps.map String.data) ≠ [] := by
    cases ps with
    | nil => exact absurd rfl hne
    | cons q qs =>
      exact joinSep_ne_nil ':' q.data (qs.map String.data)
        (hok q (List.mem_cons_self q qs)).1
  have hdata : (⟨0, joinPaths ps⟩ : ToolResult).output.data
      = joinSep ':' (ps.map String.data) := rfl
  unfold read_rpaths
  rw [if_neg (by simp), hdata, trimChars_eq_self _ hws, if_neg hjoin_ne,
    splitSep_joinSep ':' _ hmapne hfree]
  exact map_mk_data ps

/-- C3 witness: the three outcomes at the concrete tool behaviours of the
test suite. -/
theorem read_rpaths_cases_witness :
    read_rpaths ⟨1, "/opt/foo/lib:/opt/foo/lib64"⟩ = [] ∧
    read_rpaths ⟨0, " "⟩ = [] ∧
    read_rpaths ⟨0, joinPaths ["/opt/foo/lib", "/opt/foo/lib64"]⟩
      = ["/opt/foo/lib", "/opt/foo/lib64"] :=
  ⟨(read_rpaths_cases ⟨1, "/opt/foo/lib:/opt/foo/lib64"⟩ ["/x"] (by decide)
      (by decide)).1 (by decide),
   (read_rpaths_cases ⟨0, " "⟩ ["/x"] (by decide) (by decide)).2.1 rfl (by decide),
   (read_rpaths_cases ⟨0, joinPaths ["/opt/foo/lib", "/opt/foo/lib64"]⟩
      ["/opt/foo/lib", "/opt/foo/lib64"] (by decide) (by decide)).2.2⟩

/-- C4: `write_rpaths` never raises: a non-zero tool exit yields `none`
(the warning is a log side effect outside the model), success returns the
captured output, and for the echoing mock tool that output is exactly the
argument vector — containing `--force-rpath`, `--set-rpath` followed by the
colon-joined rpaths in order, and the binary path. -/
theorem write_rpaths_cases (tool : List String → ToolResult) (binary : String)
    (rpaths : List String) :
    ((tool (write_rpath_args binary rpaths)).exitCode ≠ 0 →
      write_rpaths tool binary rpaths = none) ∧
    ((tool (write_rpath_args binary rpaths)).exitCode = 0 →
      write_rpaths tool binary rpaths
        = some (tool (write_rpath_args binary rpaths)).output) ∧
    (write_rpaths echoTool "/tmp/smpl/main.x"
        ["/usr/lib", "/usr/lib64", "/opt/local/lib"]
      = some "--force-rpath --set-rpath /usr/lib:/usr/lib64:/opt/local/lib /tmp/smpl/main.x" ∧
     infixOf "--force-rpath".data
       "--force-rpath --set-rpath /usr/lib:/usr/lib64:/opt/local/lib /tmp/smpl/main.x".data = true ∧
     infixOf "--set-rpath /usr/lib:/usr/lib64:/opt/local/lib".data
       "--force-rpath --set-rpath /usr/lib:/usr/lib64:/opt/local/lib /tmp/smpl/main.x".data = true ∧
     infixOf "/tmp/smpl/main.x".data
       "--force-rpath --set-rpath /usr/lib:/usr/lib64:/opt/local/lib /tmp/smpl/main.x".data = true) := by
  refine ⟨fun h => by simp [write_rpaths, h],
    fun h => by simp [write_rpaths, h],
    by decide, by decide, by decide, by decide⟩

/-- C4 witness: a failing tool yields `none`; the echo tool's captured
output is the argument vector. -/
theorem write_rpaths_cases_witness :
    write_rpaths (fun _ => ⟨1, ""⟩) "/usr/bin/b" ["/usr/lib"] = none ∧
    write_rpaths echoTool "/usr/bin/b" ["/usr/lib"]
      = some (echoTool (write_rpath_args "/usr/bin/b" ["/usr/lib"])).output :=
  ⟨(write_rpaths_cases (fun _ => ⟨1, ""⟩) "/usr/bin/b" ["/usr/lib"]).1 (by decide),
   (write_rpaths_cases echoTool "/usr/bin/b" ["/usr/lib"]).2.1 (by decide)⟩

/-- C5: `to_relative` rewrites each path that is a descendant of `base_root`
to `$ORIGIN/<relative walk from the directory of start_path to the path>`
and passes every path not under `base_root` through unchanged; on the
concrete test vector it yields
`['$ORIGIN/../lib', '$ORIGIN/../lib64', '/opt/local/lib']`. -/
theorem to_relative_cases (start_path base_root : String) :
    (∀ p, isDescendant base_root p = false →
      to_relative start_path base_root [p] = [p]) ∧
    (∀ p, isDescendant base_root p = true →
      to_relative start_path base_root [p]
        = [String.mk (originMarker ++ '/' :: (relpath p (dirname start_path)).data)]) ∧
    to_relative "/usr/bin/test" "/usr" ["/usr/lib", "/usr/lib64", "/opt/local/lib"]
      = ["$ORIGIN/../lib", "$ORIGIN/../lib64", "/opt/local/lib"] :=
  ⟨fun p h => by simp [to_relative, h],
   fun p h => by simp [to_relative, h],
   by decide⟩

/-- C5 witness: a non-descendant passes through unchanged; a descendant is
rewritten to the `$ORIGIN` form. -/
theorem to_relative_cases_witness :
    to_relative "/usr/bin/test" "/usr" ["/opt/local/lib"] = ["/opt/local/lib"] ∧
    to_relative "/usr/bin/test" "/usr" ["/usr/lib"]
      = [String.mk (originMarker ++ '/' ::
          (relpath "/usr/lib" (dirname "/usr/bin/test")).data)] :=
  ⟨(to_relative_cases "/usr/bin/test" "/usr").1 "/opt/local/lib" (by decide),
   (to_relative_cases "/usr/bin/test" "/usr").2.1 "/usr/lib" (by decide)⟩

/-- C6: `to_absolute` replaces a leading `$ORIGIN` marker with the directory
of `start_path` and normalizes; entries without the marker — absolute or
bare relative such as `../local/lib` — are returned verbatim, not resolved
against `start_path`; the two concrete test vectors evaluate as claimed. -/
theorem to_absolute_cases (start_path : String) :
    (∀ p, originMarker.isPrefixOf p.data = false →
      to_absolute start_path [p] = [p]) ∧
    (∀ p, originMarker.isPrefixOf p.data = true →
      to_absolute start_path [p]
        = [String.mk (normpathChars ((dirname start_path).data ++ p.data.drop 7))]) ∧
    to_absolute "/usr/bin/test" ["$ORIGIN/../lib", "$ORIGIN/../lib64", "/opt/local/lib"]
      = ["/usr/lib", "/usr/lib64", "/opt/local/lib"] ∧
    to_absolute "/usr/bin/test" ["../local/lib"] = ["../local/lib"] :=
  ⟨fun p h => by
     have h' : ¬ originMarker <+: p.data := fun hp => by
       rw [← List.isPrefixOf_iff_prefix, h] at hp
       exact Bool.false_ne_true hp
     simp [to_absolute, h'],
   fun p h => by
     have h' : originMarker <+: p.data := List.isPrefixOf_iff_prefix.mp h
     simp [to_absolute, h'],
   by decide,
   by decide⟩

/-- C6 witness: a bare relative entry passes through verbatim; a marker
entry is resolved against the directory of `start_path` and normalized. -/
theorem to_absolute_cases_witness :
    to_absolute "/usr/bin/test" ["../local/lib"] = ["../local/lib"] ∧
    to_absolute "/usr/bin/test" ["$ORIGIN/../lib"]
      = [String.mk (normpathChars
          ((dirname "/usr/bin/test").data ++ "$ORIGIN/../lib".data.drop 7))] :=
  ⟨(to_absolute_cases "/usr/bin/test").1 "../local/lib" (by decide),
   (to_absolute_cases "/usr/bin/test").2.1 "$ORIGIN/../lib" (by decide)⟩

/-- C8: `file_is_relocatable` fails with an argument error citing
"does not exist" on a missing file and with a distinct argument error citing
"is not an absolute path" on an existing relative path, and the existence
check comes first: a path failing both checks reports "does not exist". -/
theorem file_is_relocatable_errors (ex body : String → Bool) (p : String) :
    (ex p = false →
      file_is_relocatable ex body p = Except.error (p ++ " does not exist")) ∧
    (ex p = true → isAbsPath p = false →
      file_is_relocatable ex body p
        = Except.error (p ++ " is not an absolute path")) ∧
    (ex p = false → isAbsPath p = false →
      file_is_relocatable ex body p = Except.error (p ++ " does not exist")) :=
  ⟨fun h => by simp [file_is_relocatable, h],
   fun h1 h2 => by simp [file_is_relocatable, h1, h2],
   fun h1 _ => by simp [file_is_relocatable, h1]⟩

/-- C8 witness: the two error conditions of the test, at a missing file and
at an existing relative path. -/
theorem file_is_relocatable_errors_witness :
    file_is_relocatable (fun _ => false) (fun _ => true) "/usr/bin/does_not_exist"
      = Except.error ("/usr/bin/does_not_exist" ++ " does not exist") ∧
    file_is_relocatable (fun _ => true) (fun _ => true) "delete.me"
      = Except.error ("delete.me" ++ " is not an absolute path") :=
  ⟨(file_is_relocatable_errors (fun _ => false) (fun _ => true)
      "/usr/bin/does_not_exist").1 rfl,
   (file_is_relocatable_errors (fun _ => true) (fun _ => true)
      "delete.me").2.1 rfl (by decide)⟩

/-- C9: `locate_patch_tool` resolves in exactly the three-tier order: a
search-path hit is returned immediately, otherwise the installed
dependency's path, otherwise the path resulting from installing the
dependency — and the returned path equals the expected path of whichever
case holds. -/
theorem locate_patch_tool_cases (env : ToolEnv) :
    (∀ p, env.which_path = some p →
      locate_patch_tool env = (p, ToolProvenance.which_found)) ∧
    (∀ p, env.which_path = none → env.installed_path = some p →
      locate_patch_tool env = (p, ToolProvenance.installed)) ∧
    (env.which_path = none → env.installed_path = none →
      locate_patch_tool env = (env.install_result, ToolProvenance.to_be_installed)) :=
  ⟨fun p h => by simp [locate_patch_tool, h],
   fun p h1 h2 => by simp [locate_patch_tool, h1, h2],
   fun h1 h2 => by simp [locate_patch_tool, h1, h2]⟩

/-- C9 witness: the three fixture cases of the test suite. -/
theorem locate_patch_tool_cases_witness :
    locate_patch_tool ⟨some "/usr/bin/patchelf", none, "/pfx/bin/patchelf"⟩
      = ("/usr/bin/patchelf", ToolProvenance.which_found) ∧
    locate_patch_tool ⟨none, some "/pfx/bin/patchelf", "/pfx/bin/patchelf"⟩
      = ("/pfx/bin/patchelf", ToolProvenance.installed) ∧
    locate_patch_tool ⟨none, none, "/pfx/bin/patchelf"⟩
      = ("/pfx/bin/patchelf", ToolProvenance.to_be_installed) :=
  ⟨(locate_patch_tool_cases ⟨some "/usr/bin/patchelf", none, "/pfx/bin/patchelf"⟩).1
      "/usr/bin/patchelf" rfl,
   (locate_patch_tool_cases ⟨none, some "/pfx/bin/patchelf", "/pfx/bin/patchelf"⟩).2.1
      "/pfx/bin/patchelf" rfl rfl,
   (locate_patch_tool_cases ⟨none, none, "/pfx/bin/patchelf"⟩).2.2 rfl rfl⟩

/-- C10: in absolute mode (`rel = false`) the parameters `newRoot`,
`origPfx` and `newPfx` are never consulted: two requests agreeing on the
binaries, the original root and the substitution map — and in particular one
passing `none` for all three optional parameters — produce identical written
RPATHs. -/
theorem relocate_abs_mode_independent (r1 r2 : RelocationRequest)
    (readTool : String → ToolResult)
    (hb : r1.binaries = r2.binaries) (_ho : r1.origRoot = r2.origRoot)
    (hm : r1.newPrefixes = r2.newPrefixes)
    (h1 : r1.rel = false) (h2 : r2.rel = false) :
    relocate r1 readTool = relocate r2 readTool := by
  unfold relocate
  rw [hb]
  refine List.map_congr_left ?_
  intro b _
  simp [relocate_rpaths, h1, h2, hm]

/-- C10 witness: passing `none` for `newRoot`, `origPfx` and `newPfx` gives
the same written RPATHs as passing arbitrary values, at the test's absolute
relocation scenario. -/
theorem relocate_abs_mode_independent_witness :
    relocate
      ⟨["/t/another_dir/main.x"], "/t", none, [("/t", "/foo")], false, none, none⟩
      (fun _ => ⟨0, "/t/lib:/usr/lib64"⟩)
    = relocate
      ⟨["/t/another_dir/main.x"], "/t", some "/elsewhere", [("/t", "/foo")],
        false, some "/e1", some "/e2"⟩
      (fun _ => ⟨0, "/t/lib:/usr/lib64"⟩) :=
  relocate_abs_mode_independent _ _ _ rfl rfl rfl rfl rfl

theorem applySubst_idem (pairs : List (String × String)) (e : String)
    (hinc : ∀ p ∈ pairs, ∀ q ∈ pairs,
      ¬ p.1.data <+: q.2.data ∧ ¬ q.2.data <+: p.1.data) :
    applySubst pairs (applySubst pairs e) = applySubst pairs e := by
  cases hf : pairs.find? (fun pr => pr.1.data.isPrefixOf e.data) with
  | none =>
    have he : applySubst pairs e = e := by unfold applySubst; rw [hf]
    rw [he]
    exact he
  | some pr =>
    have hmem : pr ∈ pairs := List.mem_of_find?_eq_some hf
    have he : applySubst pairs e
        = String.mk (pr.2.data ++ e.data.drop pr.1.data.length) := by
      unfold applySubst
      rw [hf]
    have hnone : pairs.find? (fun q =>
        q.1.data.isPrefixOf (pr.2.data ++ e.data.drop pr.1.data.length)) = none := by
      rw [List.find?_eq_none]
      intro q hq hpref
      have hq1 : q.1.data <+: pr.2.data ++ e.data.drop pr.1.data.length := by
        simpa [List.isPrefixOf_iff_prefix] using hpref
      have hq2 : pr.2.data <+: pr.2.data ++ e.data.drop pr.1.data.length :=
        List.prefix_append _ _
      rcases List.prefix_or_prefix_of_prefix hq1 hq2 with h3 | h3
      · exact (hinc q hq pr hmem).1 h3
      · exact (hinc q hq pr hmem).2 h3
    rw [he]
    unfold applySubst
    simp only [data_mk]
    rw [hnone]

/-- C2 (amended): in absolute mode, `relocate` is idempotent per binary
whenever no old prefix of the substitution map is prefix-comparable with any
new prefix of the map — the second run's prefix substitution then finds
nothing left to replace.  (The unrestricted claim is refuted by
`relocate_rpaths_not_idempotent`: a map whose new value extends one of its
old values keeps matching.) -/
theorem relocate_rpaths_idempotent (req : RelocationRequest) (binary : String)
    (rpaths : List String) (hrel : req.rel = false)
    (hinc : ∀ p ∈ req.newPrefixes, ∀ q ∈ req.newPrefixes,
      ¬ p.1.data <+: q.2.data ∧ ¬ q.2.data <+: p.1.data) :
    relocate_rpaths req binary (relocate_rpaths req binary rpaths)
      = relocate_rpaths req binary rpaths := by
  simp only [relocate_rpaths, hrel, if_neg Bool.false_ne_true, List.map_map]
  refine List.map_congr_left ?_
  intro e _
  exact applySubst_idem req.newPrefixes e (by simpa using hinc)

/-- C2 witness: idempotence at the test's absolute relocation scenario
(`{'/t': '/foo'}`, whose old and new values are prefix-incomparable). -/
theorem relocate_rpaths_idempotent_witness :
    relocate_rpaths
      ⟨["/t/another_dir/main.x"], "/t", none, [("/t", "/foo")], false, none, none⟩
      "/t/another_dir/main.x"
      (relocate_rpaths
        ⟨["/t/another_dir/main.x"], "/t", none, [("/t", "/foo")], false, none, none⟩
        "/t/another_dir/main.x" ["/t/lib", "/usr/lib64"])
    = relocate_rpaths
        ⟨["/t/another_dir/main.x"], "/t", none, [("/t", "/foo")], false, none, none⟩
        "/t/another_dir/main.x" ["/t/lib", "/usr/lib64"] :=
  relocate_rpaths_idempotent _ _ _ rfl (by decide)

/-- C2 counterexample: running `relocate` twice with the request
`counterReq` does not equal running it once — the first run rewrites
`/a/x` to `/a/b/x`, the second rewrites it again to `/a/b/b/x`. -/
theorem relocate_rpaths_not_idempotent :
    relocate_rpaths counterReq "/b/x"
        (relocate_rpaths counterReq "/b/x" ["/a/x"])
      ≠ relocate_rpaths counterReq "/b/x" ["/a/x"] := by decide

theorem normpathChars_abs (l : List Char) (h : l.head? = some '/') :
    normpathChars l = '/' :: joinSep '/' (segsAbs l) := by
  have hne : l ≠ [] := by cases l <;> simp_all
  unfold normpathChars
  rw [if_neg hne, if_pos h]

theorem dirname_abs (sp : String) (h : isAbsPath sp = true) :
    ∃ dr, (dirname sp).data = '/' :: dr := by
  simp only [isAbsPath, decide_eq_true_eq] at h
  obtain ⟨xs, hxs⟩ : ∃ xs, sp.data = '/' :: xs := by
    cases hd : sp.data with
    | nil => rw [hd] at h; simp at h
    | cons c cs =>
      rw [hd] at h
      simp at h
      exact ⟨cs, by rw [h]⟩
  unfold dirname dirnameChars
  rw [hxs]
  have hsplit : splitSep '/' ('/' :: xs) = [] :: splitSep '/' xs := by
    simp [splitSep]
  rw [hsplit]
  cases hxs2 : splitSep '/' xs with
  | nil => exact absurd hxs2 (splitSep_ne_nil '/' xs)
  | cons h1 t1 =>
    cases t1 with
    | nil => exact ⟨[], by simp [joinSep]⟩
    | cons y ys =>
      have hdl : ([] :: h1 :: y :: ys).dropLast = [] :: (h1 :: y :: ys).dropLast := by
        simp
      rw [hdl]
      cases hdl2 : (h1 :: y :: ys).dropLast with
      | nil => simp at hdl2
      | cons z zs =>
        refine ⟨joinSep '/' (z :: zs), ?_⟩
        have : joinSep '/' ([] :: z :: zs) = '/' :: joinSep '/' (z :: zs) := by
          simp [joinSep]
        rw [this]
        simp

theorem segsAbs_clean (pd : List Char) :
    ∀ s ∈ segsAbs pd, isClean s = true := by
  intro s hs
  rw [segsAbs, List.mem_reverse] at hs
  exact resolveFold_all_clean [] (splitSep '/' pd) (by simp) s hs

theorem segsAbs_sep_free (pd : List Char) : ∀ s ∈ segsAbs pd, '/' ∉ s := by
  intro s hs
  rw [segsAbs, List.mem_reverse] at hs
  rcases resolveFold_mem_true [] (splitSep '/' pd) s hs with h1 | h1
  · simp at h1
  · exact mem_splitSep_sep_free '/' pd s h1

/-- The heart of the round-trip law: prepending the directory and
normalizing undoes `relpath`, at the character level, provided both paths
are absolute. -/
theorem roundtrip_core (Dd pd : List Char) (hD : ∃ dr, Dd = '/' :: dr)
    (hp : pd.head? = some '/') :
    normpathChars (Dd ++ '/' :: relpathChars pd Dd) = normpathChars pd := by
  obtain ⟨dr, hdr⟩ := hD
  have hhead : (Dd ++ '/' :: relpathChars pd Dd).head? = some '/' := by
    rw [hdr]; rfl
  rw [normpathChars_abs _ hhead, normpathChars_abs _ hp]
  have hseg : segsAbs (Dd ++ '/' :: relpathChars pd Dd) = segsAbs pd := by
    rw [segsAbs, splitSep_append, resolveFold_append]
    rw [show resolveFold true [] (splitSep '/' Dd) = (segsAbs Dd).reverse from
      by rw [segsAbs, List.reverse_reverse]]
    simp only [relpathChars]
    set Pl := segsAbs pd with hPl
    set Dl := segsAbs Dd with hDl
    set i := commonPrefixLen Dl Pl with hi
    have hile : i ≤ Dl.length := commonPrefixLen_le_left Dl Pl
    have hiler : i ≤ Pl.length := commonPrefixLen_le_right Dl Pl
    have htake := take_commonPrefixLen_eq Dl Pl
    by_cases hrel : List.replicate (Dl.length - i) ['.', '.'] ++ Pl.drop i = []
    · rw [if_pos hrel]
      rcases List.append_eq_nil.mp hrel with ⟨hk, hdrop⟩
      have hk0 : Dl.length - i = 0 := by
        have := congrArg List.length hk
        simpa using this
      have hpl0 : Pl.length - i = 0 := by
        have := congrArg List.length hdrop
        simpa using this
      have hiDl : i = Dl.length := by omega
      have hiPl : i = Pl.length := by omega
      have hDlPl : Dl = Pl := by
        calc Dl = Dl.take i := by rw [hiDl, List.take_length]
        _ = Pl.take i := htake
        _ = Pl := by rw [hiPl, List.take_length]
      have hsplitdot : splitSep '/' ['.'] = [['.']] :=
        splitSep_sep_free '/' ['.'] (by decide)
      rw [hsplitdot]
      have hstep : resolveFold true Dl.reverse [['.']] = Dl.reverse := by
        simp [resolveFold, resolveStep_skip true Dl.reverse ['.'] (Or.inr rfl)]
      rw [hstep, List.reverse_reverse, hDlPl]
    · rw [if_neg hrel]
      have hfree : ∀ x ∈ List.replicate (Dl.length - i) ['.', '.'] ++ Pl.drop i,
          '/' ∉ x := by
        intro x hx
        rcases List.mem_append.mp hx with h1 | h1
        · rw [List.eq_of_mem_replicate h1]; decide
        · exact segsAbs_sep_free pd x (List.mem_of_mem_drop h1)
      rw [splitSep_joinSep '/' _ hrel hfree, resolveFold_append]
      have hnodd : ∀ s ∈ Dl.reverse, s ≠ ['.', '.'] := by
        intro s hs hsdd
        have := segsAbs_clean Dd s (List.mem_reverse.mp hs)
        rw [hsdd] at this
        simp [isClean] at this
      rw [resolveFold_dotdot Dl.reverse (Dl.length - i) hnodd]
      rw [show Dl.reverse.drop (Dl.length - i) = (Dl.take i).reverse from
        List.reverse_take.symm]
      rw [htake]
      have hclean2 : ∀ s ∈ Pl.drop i, isClean s = true := fun s hs =>
        segsAbs_clean pd s (List.mem_of_mem_drop hs)
      rw [resolveFold_clean true _ _ hclean2, ← List.reverse_append,
        List.take_append_drop, List.reverse_reverse]
  rw [hseg]

/-- C7 counterexample: the round-trip law fails for a relative `start_path`.
With `start_path = "x/y"` the walk `$ORIGIN/../a/b` computed by
`to_relative` resolves through the relative directory `x`, and
normalization yields the relative path `a/b` instead of `/a/b` — unequal
even after normalizing both sides. -/
theorem roundtrip_fails_for_relative_start :
    isDescendant "/a" "/a/b" = true ∧
    (to_absolute "x/y" (to_relative "x/y" "/a" ["/a/b"])).map normpath
      ≠ [normpath "/a/b"] := by decide

/-- C7 (amended): for every *absolute* `start_path`, every absolute path
that is a descendant of `base_root` is reconstructed, up to path
normalization, by `to_absolute` after `to_relative`.  (The claim's "every
start_path" is refuted by `roundtrip_fails_for_relative_start`; absoluteness
of `start_path` is the amendment.) -/
theorem to_relative_to_absolute_roundtrip (sp br p : String)
    (hsp : isAbsPath sp = true) (hp : isAbsPath p = true)
    (hd : isDescendant br p = true) :
    to_absolute sp (to_relative sp br [p]) = [normpath p] := by
  have h1 : to_relative sp br [p]
      = [String.mk (originMarker ++ '/' :: (relpath p (dirname sp)).data)] := by
    simp [to_relative, hd]
  rw [h1]
  have hpre : originMarker <+: originMarker ++ '/' :: (relpath p (dirname sp)).data :=
    List.prefix_append _ _
  simp only [to_absolute, List.map, data_mk, List.isPrefixOf_iff_prefix, if_pos hpre]
  have hdrop : (originMarker ++ '/' :: (relpath p (dirname sp)).data).drop 7
      = '/' :: (relpath p (dirname sp)).data :=
    List.drop_left originMarker _
  rw [hdrop]
  have hp' : p.data.head? = some '/' := by
    simpa [isAbsPath] using hp
  have hcore := roundtrip_core (dirname sp).data p.data (dirname_abs sp hsp) hp'
  show [String.mk (normpathChars ((dirname sp).data ++ '/' :: relpathChars p.data (dirname sp).data))] = [normpath p]
  rw [hcore]
  rfl

/-- C7 witness: the round-trip at the concrete test triple. -/
theorem to_relative_to_absolute_roundtrip_witness :
    to_absolute "/usr/bin/test" (to_relative "/usr/bin/test" "/usr" ["/usr/lib"])
      = [normpath "/usr/lib"] :=
  to_relative_to_absolute_roundtrip "/usr/bin/test" "/usr" "/usr/lib"
    (by decide) (by decide) (by decide)

theorem cleanAbs_elim (t : String) (h : cleanAbs t = true) :
    ∃ rest, t.data = '/' :: rest ∧ ∀ s ∈ splitSep '/' rest, isClean s = true := by
  unfold cleanAbs at h
  rw [Bool.and_eq_true] at h
  obtain ⟨h1, h2⟩ := h
  rw [decide_eq_true_eq] at h1
  cases hd : t.data with
  | nil => rw [hd] at h1; simp at h1
  | cons c cs =>
    rw [hd] at h1 h2
    simp only [List.head?] at h1
    injection h1 with h1
    subst h1
    refine ⟨cs, rfl, ?_⟩
    intro s hs
    exact List.all_eq_true.mp (by simpa using h2) s hs

theorem cleanAbs_rest_ne_nil (rest : List Char)
    (h : ∀ s ∈ splitSep '/' rest, isClean s = true) : rest ≠ [] := by
  intro hr
  subst hr
  have := h [] (by simp [splitSep])
  simp [isClean] at this

theorem segsAbs_of_clean (rest : List Char)
    (h : ∀ s ∈ splitSep '/' rest, isClean s = true) :
    segsAbs ('/' :: rest) = splitSep '/' rest := by
  unfold segsAbs
  have hsplit : splitSep '/' ('/' :: rest) = [] :: splitSep '/' rest := by
    simp [splitSep]
  rw [hsplit]
  have hskip : resolveFold true [] ([] :: splitSep '/' rest)
      = resolveFold true [] (splitSep '/' rest) := by
    simp [resolveFold, resolveStep_skip true [] [] (Or.inl rfl)]
  rw [hskip, resolveFold_clean true [] _ h]
  simp

theorem normpathChars_clean_abs (rest : List Char)
    (h : ∀ s ∈ splitSep '/' rest, isClean s = true) :
    normpathChars ('/' :: rest) = '/' :: rest := by
  rw [normpathChars_abs ('/' :: rest) rfl, segsAbs_of_clean rest h,
    joinSep_splitSep]

theorem dirnameChars_append (l x : List Char) (hl : l ≠ []) (hx : '/' ∉ x) :
    dirnameChars (l ++ '/' :: x) = l := by
  unfold dirnameChars
  rw [splitSep_append, splitSep_sep_free '/' x hx]
  have hdl : (splitSep '/' l ++ [x]).dropLast = splitSep '/' l := by simp
  rw [hdl, joinSep_splitSep]
  rw [if_neg (by intro hc; exact hl hc.1)]

theorem relpathChars_append_seg (rest x : List Char)
    (h : ∀ s ∈ splitSep '/' rest, isClean s = true)
    (hx : '/' ∉ x) (hxc : isClean x = true) :
    relpathChars (('/' :: rest) ++ '/' :: x) ('/' :: rest) = x := by
  have hall : ∀ s ∈ splitSep '/' (rest ++ '/' :: x), isClean s = true := by
    intro s hs
    rw [splitSep_append, splitSep_sep_free '/' x hx] at hs
    rcases List.mem_append.mp hs with hmem | hmem
    · exact h s hmem
    · simp at hmem; rw [hmem]; exact hxc
  simp only [relpathChars]
  rw [show (('/' :: rest) ++ '/' :: x) = '/' :: (rest ++ '/' :: x) from rfl]
  rw [segsAbs_of_clean rest h, segsAbs_of_clean _ hall, splitSep_append,
    splitSep_sep_free '/' x hx, commonPrefixLen_append_self, Nat.sub_self,
    List.replicate_zero, List.nil_append, List.drop_left]
  rw [if_neg (by simp)]
  rfl

theorem to_absolute_cons (sp a : String) (l : List String) :
    to_absolute sp (a :: l) = to_absolute sp [a] ++ to_absolute sp l := by
  simp [to_absolute]

theorem to_relative_cons (sp br a : String) (l : List String) :
    to_relative sp br (a :: l) = to_relative sp br [a] ++ to_relative sp br l := by
  simp [to_relative]

theorem to_absolute_single_marker (sp p : String)
    (h : originMarker.isPrefixOf p.data = true) :
    to_absolute sp [p]
      = [String.mk (normpathChars ((dirname sp).data ++ p.data.drop 7))] := by
  have h' : originMarker <+: p.data := List.isPrefixOf_iff_prefix.mp h
  simp [to_absolute, h']

theorem to_absolute_single_plain (sp p : String)
    (h : originMarker.isPrefixOf p.data = false) :
    to_absolute sp [p] = [p] := by
  have h' : ¬ originMarker <+: p.data := fun hp => by
    rw [← List.isPrefixOf_iff_prefix, h] at hp
    exact Bool.false_ne_true hp
  simp [to_absolute, h']

theorem to_relative_single_plain (sp br p : String)
    (h : isDescendant br p = false) :
    to_relative sp br [p] = [p] := by
  simp [to_relative, h]

theorem applySubst_single_match (t new e : String)
    (hpref : t.data.isPrefixOf e.data = true) :
    applySubst [(t, new)] e
      = String.mk (new.data ++ e.data.drop t.data.length) := by
  unfold applySubst
  rw [List.find?_cons_of_pos _ (by simpa using hpref)]

theorem applySubst_single_miss (t new e : String)
    (hpref : t.data.isPrefixOf e.data = false) :
    applySubst [(t, new)] e = e := by
  unfold applySubst
  rw [List.find?_cons_of_neg _ (by simp [hpref]), List.find?_nil]

/-- C1: relocating a binary whose RPATHs are
`['$ORIGIN/lib', '$ORIGIN/lib64', '/opt/local/lib']` in relative mode with
substitution `{<tmpdir>: '/foo'}` — where `<tmpdir>` is any clean absolute
root that is not itself a prefix of `/opt/local/lib` — writes exactly the
entries `/foo/lib`, `/foo/lib64`, `/opt/local/lib` in this order, whose
joined form is `/foo/lib:/foo/lib64:/opt/local/lib`. -/
theorem relocate_relative_mode (t : String) (hclean : cleanAbs t = true)
    (hnopt : t.data.isPrefixOf "/opt/local/lib".data = false) :
    relocate_rpaths (c1req t) (c1binary t)
        ["$ORIGIN/lib", "$ORIGIN/lib64", "/opt/local/lib"]
      = ["/foo/lib", "/foo/lib64", "/opt/local/lib"] ∧
    joinPaths ["/foo/lib", "/foo/lib64", "/opt/local/lib"]
      = "/foo/lib:/foo/lib64:/opt/local/lib" := by
  refine ⟨?_, by decide⟩
  obtain ⟨rest, hdata, hrest⟩ := cleanAbs_elim t hclean
  have hrne : rest ≠ [] := cleanAbs_rest_ne_nil rest hrest
  have hcx : ∀ x : List Char, '/' ∉ x → isClean x = true →
      ∀ s ∈ splitSep '/' (rest ++ '/' :: x), isClean s = true := by
    intro x hx hxc s hs
    rw [splitSep_append, splitSep_sep_free '/' x hx] at hs
    rcases List.mem_append.mp hs with h | h
    · exact hrest s h
    · simp at h; rw [h]; exact hxc
  -- the binary's path relative to the new root is `main.x`
  have hbin : (c1binary t).data
      = ('/' :: (rest ++ '/' :: "another_dir".data)) ++ '/' :: "main.x".data := by
    simp [c1binary, hdata, List.append_assoc]
  have hnr : (c1newRoot t).data = '/' :: (rest ++ '/' :: "another_dir".data) := by
    simp [c1newRoot, hdata]
  have hrel1 : relpath (c1binary t) (c1newRoot t) = String.mk "main.x".data := by
    unfold relpath
    rw [hbin, hnr,
      relpathChars_append_seg _ _ (hcx "another_dir".data (by decide) (by decide))
        (by decide) (by decide)]
  -- the original location of the binary and its directory
  have horig : (origLocation t (c1newRoot t) (c1binary t)).data
      = ('/' :: rest) ++ '/' :: "main.x".data := by
    unfold origLocation
    rw [data_mk, hrel1, data_mk, hdata]
  have hsd : (dirname (origLocation t (c1newRoot t) (c1binary t))).data
      = t.data := by
    unfold dirname
    rw [data_mk, horig, dirnameChars_append _ _ (by simp) (by decide), hdata]
  -- making the RPATHs absolute against the original location
  have habs : to_absolute (origLocation t (c1newRoot t) (c1binary t))
      ["$ORIGIN/lib", "$ORIGIN/lib64", "/opt/local/lib"]
      = [String.mk (t.data ++ '/' :: "lib".data),
         String.mk (t.data ++ '/' :: "lib64".data), "/opt/local/lib"] := by
    rw [to_absolute_cons _ "$ORIGIN/lib" ["$ORIGIN/lib64", "/opt/local/lib"],
      to_absolute_cons _ "$ORIGIN/lib64" ["/opt/local/lib"],
      to_absolute_single_marker _ "$ORIGIN/lib" (by decide),
      to_absolute_single_marker _ "$ORIGIN/lib64" (by decide),
      to_absolute_single_plain _ "/opt/local/lib" (by decide), hsd]
    rw [show "$ORIGIN/lib".data.drop 7 = '/' :: "lib".data from by decide,
      show "$ORIGIN/lib64".data.drop 7 = '/' :: "lib64".data from by decide,
      hdata]
    rw [show ('/' :: rest) ++ '/' :: "lib".data
        = '/' :: (rest ++ '/' :: "lib".data) from rfl,
      show ('/' :: rest) ++ '/' :: "lib64".data
        = '/' :: (rest ++ '/' :: "lib64".data) from rfl,
      normpathChars_clean_abs _ (hcx "lib".data (by decide) (by decide)),
      normpathChars_clean_abs _ (hcx "lib64".data (by decide) (by decide))]
    simp [hdata]
  -- the prefix substitution
  have hsubst : List.map (applySubst [(t, "/foo")])
      [String.mk (t.data ++ '/' :: "lib".data),
       String.mk (t.data ++ '/' :: "lib64".data), "/opt/local/lib"]
      = ["/foo/lib", "/foo/lib64", "/opt/local/lib"] := by
    simp only [List.map]
    rw [applySubst_single_match t "/foo" _ (isPrefixOf_append_self _ _),
      applySubst_single_match t "/foo" _ (isPrefixOf_append_self _ _),
      applySubst_single_miss t "/foo" _ hnopt]
    simp only [data_mk, List.drop_left]
    decide
  -- nothing is a descendant of the new root, so the final list is unchanged
  have htlen : 2 ≤ t.data.length := by
    rw [hdata]
    have := List.length_pos.mpr hrne
    simp
    omega
  have hnrlen : (c1newRoot t).data.length = t.data.length + 12 := by
    rw [show (c1newRoot t).data = t.data ++ '/' :: "another_dir".data from rfl]
    simp
  have hdesc : ∀ e : String, e.data.length < t.data.length + 13 →
      isDescendant (c1newRoot t) e = false := by
    intro e he
    unfold isDescendant
    apply isPrefixOf_false_of_lt
    rw [List.length_append, hnrlen]
    simp only [List.length_cons, List.length_nil]
    omega
  have hfinal : to_relative (c1binary t) (c1newRoot t)
      ["/foo/lib", "/foo/lib64", "/opt/local/lib"]
      = ["/foo/lib", "/foo/lib64", "/opt/local/lib"] := by
    rw [to_relative_cons _ _ "/foo/lib" ["/foo/lib64", "/opt/local/lib"],
      to_relative_cons _ _ "/foo/lib64" ["/opt/local/lib"],
      to_relative_single_plain _ _ _ (hdesc "/foo/lib"
        (by rw [show ("/foo/lib" : String).data.length = 8 from by decide]; omega)),
      to_relative_single_plain _ _ _ (hdesc "/foo/lib64"
        (by rw [show ("/foo/lib64" : String).data.length = 10 from by decide]; omega)),
      to_relative_single_plain _ _ _ (hdesc "/opt/local/lib"
        (by rw [show ("/opt/local/lib" : String).data.length = 14 from by decide]; omega))]
    simp
  show to_relative (c1binary t) (c1newRoot t)
      (List.map (applySubst [(t, "/foo")])
        (to_absolute (origLocation t (c1newRoot t) (c1binary t))
          ["$ORIGIN/lib", "$ORIGIN/lib64", "/opt/local/lib"]))
    = ["/foo/lib", "/foo/lib64", "/opt/local/lib"]
  rw [habs, hsubst, hfinal]

/-- C1 witness: the scenario at the concrete root `/tmp/xyz`. -/
theorem relocate_relative_mode_witness :
    relocate_rpaths (c1req "/tmp/xyz") (c1binary "/tmp/xyz")
        ["$ORIGIN/lib", "$ORIGIN/lib64", "/opt/local/lib"]
      = ["/foo/lib", "/foo/lib64", "/opt/local/lib"] ∧
    joinPaths ["/foo/lib", "/foo/lib64", "/opt/local/lib"]
      = "/foo/lib:/foo/lib64:/opt/local/lib" :=
  relocate_relative_mode "/tmp/xyz" (by decide) (by decide)

end Relocate
